import Mathlib

/-!
# Verification of the greins load coordinator (`greins/app.py`)

This file gives a shallow embedding of the loader/merge logic of
`GreinsApplication` (`src/greins/app.py`) and proves properties of it.

Modelling conventions:
* Python objects that only matter through identity and truthiness
  (handler callables, hook values bound in a config namespace) are
  modelled as `PyVal`, carrying an object id and a truthiness flag.
* The closure created per mount binding by `wrap` in `FileLoader.run`
  (lines 161-166) is modelled as a `Wrapper`: a fresh object whose
  identity is the triple (load generation, loader index, binding index);
  two wrappers are equal exactly when they are the same closure object,
  which in the source happens only for the very same `wrap(a)` call.
* Python dicts are modelled as association lists in insertion /
  iteration order; `dict.get` is `lookupA`, `dict.setdefault` appends at
  the end when the key is absent and otherwise returns the stored value.
* Logging calls and validator invocations are recorded as an event
  trace (`Ev`); each constructor corresponds to one call site in
  `app.py`.
* Executing a config file (`execfile`, line 156) is abstracted by a
  `UnitExec`: the observable outcome of running the unit's code in its
  namespace — the final contents of the namespace's `mounts` dict, the
  hook-name bindings present in the namespace when execution ended,
  whether execution raised, and the traceback files collected on a
  raise (lines 176-179).
-/

set_option autoImplicit false

namespace Greins

/-- A Python value as seen by the coordinator: an object identity plus
its truthiness (`if handler:` at `app.py` line 98). -/
structure PyVal where
  oid : Nat
  truthy : Bool
deriving DecidableEq, Repr

/-- The closure `app_with_env` produced by `wrap(a)` at `app.py` lines
161-166.  A fresh closure object is created for every binding processed,
so identity is (load generation, loader index, binding index); `app` is
the object id of the wrapped handler `a`. -/
structure Wrapper where
  gen : Nat
  loader : Nat
  idx : Nat
  app : Nat
deriving DecidableEq, Repr

/-- Event trace entries: one constructor per logging / call site in
`app.py`.  `validateCall` records an invocation of a hook validator
(line 100); the rest are logger calls. -/
inductive Ev where
  /-- `"Loading configuration for %s"` (line 155) -/
  | infoLoading (name : String)
  /-- `"Exception reading config for %s:"` (line 180) -/
  | logExc (name : String)
  /-- `"Adding leading '/' to '%s'"` (line 168), logs the un-normalized key -/
  | warnSlash (r : String)
  /-- `"Duplicate routes for '%s'"` (lines 93 and 171) -/
  | warnDup (r : String)
  /-- the call `self._hooks[hook]['validator'](handler)` (line 100) -/
  | validateCall (hook : String) (oid : Nat)
  /-- `"Error setting up hooks for file %s"` (line 103); the hook field
  records which loop iteration logged it -/
  | hookErr (hook : String) (cf : String)
  /-- `"file failed to load: %s"` (line 109); never reachable, see `mergeLoop` -/
  | errLoadFail (cf : String)
  /-- `"Greins booted successfully."` (line 114) -/
  | infoBooted
  /-- `"Routes:\n%s"` (line 115) -/
  | debugRoutes
deriving DecidableEq, Repr

/-- Association-list lookup, modelling Python `dict.get` (first match;
dict keys are unique anyway). -/
def lookupA {α : Type} : List (String × α) → String → Option α
  | [], _ => none
  | (k', v) :: rest, k => if k' = k then some v else lookupA rest k

/-- The keys of an association list (a dict's key view). -/
def keys {α : Type} (m : List (String × α)) : List String :=
  m.map Prod.fst

/-- Python `set.union`: returns a NEW set, does not mutate either
argument (this is what `app.py` line 106 calls and discards). -/
def pyUnion (a b : List String) : List String :=
  a ++ b.filter (fun x => ¬ a.contains x)

/-- The test `r.startswith('/')` (line 167) for the one-character
needle `'/'`: does the first character equal `'/'`? -/
def hasSlash (r : String) : Bool :=
  match r.data with
  | [] => false
  | c :: _ => c = '/'

/-- The normalized route key: `r` if it starts with `'/'`, otherwise
`'/' + r` (lines 167-169). -/
def normKey (r : String) : String :=
  if hasSlash r then r else "/" ++ r

/-- `os.path.basename`: the characters after the last `/`. -/
def baseChars (l : List Char) : List Char :=
  l.foldl (fun acc c => if c = '/' then [] else acc ++ [c]) []

/-- `cf_name = os.path.splitext(os.path.basename(self.cf))[0]`
(line 145): the file name with directory part and last extension
stripped.  (The splitext special case for leading-dot file names is
immaterial: names come from a `*.py` glob.) -/
def cfNameOf (cf : String) : String :=
  let base := baseChars cf.data
  let r := base.reverse
  ⟨if r.contains '.' then ((r.dropWhile (fun c => c ≠ '.')).drop 1).reverse
   else base⟩

/-- The observable behaviour of executing one config file
(`execfile(self.cf, self.cfg, self.cfg)`, line 156). -/
structure UnitExec where
  /-- the config file path `self.cf` -/
  cf : String
  /-- the final contents of the namespace's `mounts` dict: route key to
  handler object id, in iteration order, keys unique -/
  mounts : List (String × Nat)
  /-- hook-name bindings present in the namespace when execution ended
  (also populated when the unit raised part-way through) -/
  hookBindings : List (String × PyVal)
  /-- whether execution raised -/
  raised : Bool
  /-- the source files found in the exception traceback (plus the
  syntax-error file), added to `reloader_extra_files` on a raise -/
  tbFiles : List String
deriving DecidableEq, Repr

/-- The state of a `FileLoader` thread after `run()` finished. -/
structure LoaderResult where
  /-- `self.cf` -/
  cf : String
  /-- `self.mounts`: normalized route key to the wrapper stored for it -/
  selfMounts : List (String × Wrapper)
  /-- the hook-relevant part of `self.cfg`, read by `load()` line 97 -/
  cfg : List (String × PyVal)
  /-- `self.reloader_extra_files` -/
  extraFiles : List String
  /-- what this thread logged while running -/
  log : List Ev
deriving DecidableEq, Repr

/-- One iteration of the mount loop in `FileLoader.run` (lines
159-172): wrap the handler, normalize the key (warning if a `/` was
prepended), `setdefault` into `self.mounts`, and warn on a duplicate
whose stored wrapper differs. -/
def procMount (gen lid : Nat) (st : List (String × Wrapper) × List Ev)
    (b : Nat × (String × Nat)) : List (String × Wrapper) × List Ev :=
  let m := st.1
  let evs := st.2
  let idx := b.1
  let r0 := b.2.1
  let a := b.2.2
  let w : Wrapper := ⟨gen, lid, idx, a⟩
  let r := normKey r0
  let evs1 := evs ++ (if hasSlash r0 then [] else [Ev.warnSlash r0])
  match lookupA m r with
  | some w0 => (m, evs1 ++ (if w0 ≠ w then [Ev.warnDup r] else []))
  | none => (m ++ [(r, w)], evs1)

/-- The whole mount loop of `FileLoader.run` (lines 159-172), carrying
the position of the binding in the dict's iteration order (which names
the closure object created for it). -/
def procMounts (gen lid : Nat) : Nat → List (String × Nat) →
    List (String × Wrapper) × List Ev → List (String × Wrapper) × List Ev
  | _, [], st => st
  | idx, b :: rest, st =>
    procMounts gen lid (idx + 1) rest (procMount gen lid st (idx, b))

/-- `FileLoader.run` (lines 144-181).  On a raise, `self.mounts` stays
empty, the traceback files go to `reloader_extra_files` when the
reloader is on, and the exception is logged; the namespace (`self.cfg`)
keeps whatever bindings execution made before raising.  On success the
mount loop processes every declared binding in order. -/
def runFL (ur : Bool) (gen lid : Nat) (u : UnitExec) : LoaderResult :=
  let name := cfNameOf u.cf
  if u.raised then
    { cf := u.cf
      selfMounts := []
      cfg := u.hookBindings
      extraFiles := if ur then u.tbFiles else []
      log := [Ev.infoLoading name, Ev.logExc name] }
  else
    let p := procMounts gen lid 0 u.mounts ([], [])
    { cf := u.cf
      selfMounts := p.1
      cfg := u.hookBindings
      extraFiles := []
      log := [Ev.infoLoading name] ++ p.2 }

/-- The coordinator's route-table state plus its hook registry
(`self._mounts` and the `handlers` lists of `self._hooks`).  The
validators of `self._hooks` live outside the state: they come from
`gunicorn.config.make_settings()` and are passed as a function. -/
structure AppState where
  mounts : List (String × Wrapper)
  hooks : List (String × List PyVal)
deriving DecidableEq, Repr

/-- `self._hooks` as built by `init` (lines 50-55): one entry with an
empty handler list per Server Hooks setting name. -/
def initHooks (names : List String) : List (String × List PyVal) :=
  names.map (fun n => (n, []))

/-- One iteration of the merge's mount loop (`load`, lines 91-93):
`self._mounts.setdefault(route, value)`, warning when the returned
stored value differs from `value`. -/
def mergeStep (st : List (String × Wrapper) × List Ev)
    (b : String × Wrapper) : List (String × Wrapper) × List Ev :=
  let m := st.1
  let evs := st.2
  match lookupA m b.1 with
  | some w0 => (m, evs ++ (if w0 ≠ b.2 then [Ev.warnDup b.1] else []))
  | none => (m ++ [(b.1, b.2)], evs)

/-- One iteration of the merge's hook loop (`load`, lines 96-103) for a
single registry entry: read `t.cfg.get(hook)`; a missing or falsy value
is skipped entirely; a truthy value is passed to the validator and
appended on success, while a validator exception logs an error and
drops the handler. -/
def hookStep (V : String → PyVal → Bool) (cf : String)
    (cfg : List (String × PyVal)) (e : String × List PyVal) :
    (String × List PyVal) × List Ev :=
  match lookupA cfg e.1 with
  | none => (e, [])
  | some v =>
    if v.truthy then
      if V e.1 v then
        ((e.1, e.2 ++ [v]), [Ev.validateCall e.1 v.oid])
      else
        (e, [Ev.validateCall e.1 v.oid, Ev.hookErr e.1 cf])
    else (e, [])

/-- The merge's hook loop over the whole registry (`for hook in
self._hooks:`, line 96). -/
def mergeHooks (V : String → PyVal → Bool) (cf : String)
    (cfg : List (String × PyVal)) :
    List (String × List PyVal) → List (String × List PyVal) × List Ev
  | [] => ([], [])
  | e :: rest =>
    let p := hookStep V cf cfg e
    let q := mergeHooks V cf cfg rest
    (p.1 :: q.1, p.2 ++ q.2)

/-- Merging one finished thread's results into the coordinator state
(`load`, lines 89-103): mounts by `setdefault`, then hooks. -/
def mergeThread (V : String → PyVal → Bool) (st : AppState)
    (t : LoaderResult) : AppState × List Ev :=
  let pm := t.selfMounts.foldl mergeStep (st.mounts, [])
  let ph := mergeHooks V t.cf t.cfg st.hooks
  (⟨pm.1, ph.1⟩, pm.2 ++ ph.2)

/-- Exceptions that can escape `load`. -/
inductive PyError where
  /-- `TypeError: 'str' object is not callable`, raised by `t.cf()` at
  line 109 (`self.cf` is a string, not a callable) -/
  | strNotCallable
deriving DecidableEq, Repr

/-- Modelled from the spec: the `Router` built from the merged route
table (`greins/router.py` is not part of the given sources; the claims
use it only as the container of the merged table handed to the serving
layer). -/
structure Router where
  table : List (String × Wrapper)
deriving DecidableEq, Repr

/-- A successful return of `load`. -/
structure LoadOk where
  /-- the coordinator state after the merge (`self._mounts`/`self._hooks`) -/
  st : AppState
  /-- the watch-file set handed to `reloader.start()` (line 112), when
  the reloader is enabled -/
  reloaderFiles : Option (List String)
  /-- the returned `Router(mounts=self._mounts)` (line 113) -/
  router : Router
  /-- what the merge phase logged -/
  log : List Ev
deriving DecidableEq, Repr

/-- The merge loop of `load` (lines 87-109) over the thread list, each
thread paired with the result of its `is_alive()` check at line 89
(`true` = finished).  A finished thread is merged; for it, line 106
computes `reloader.extra_files.union(t.reloader_extra_files)` and
discards the result, so the watch-set `rf` is passed on unchanged.  An
unfinished thread reaches line 109, whose expression `t.cf()` calls a
string and raises `TypeError` out of `load` before anything is
logged. -/
def mergeLoop (ur : Bool) (V : String → PyVal → Bool) :
    AppState → List String → List Ev → List (LoaderResult × Bool) →
    Except PyError (AppState × List String × List Ev)
  | st, rf, evs, [] => Except.ok (st, rf, evs)
  | st, rf, evs, (t, fin) :: rest =>
    if fin then
      let p := mergeThread V st t
      let _discarded := if ur then pyUnion rf t.extraFiles else rf
      mergeLoop ur V p.1 rf (evs ++ p.2) rest
    else
      Except.error PyError.strNotCallable

/-- Thread creation (`load`, lines 71-79): one `FileLoader` per
discovered config file, in discovery order; `lid` is the thread's
position, naming its identity; the `Bool` is the later `is_alive()`
observation for that thread. -/
def mkThreads (ur : Bool) (gen : Nat) :
    Nat → List (UnitExec × Bool) → List (LoaderResult × Bool)
  | _, [] => []
  | lid, (u, fin) :: rest =>
    (runFL ur gen lid u, fin) :: mkThreads ur gen (lid + 1) rest

/-- `GreinsApplication.load` (lines 67-116).  `units` pairs each
discovered config file's execution behaviour with whether its loader
thread had finished when the merge examined it; `st0` is the
coordinator state carried on the application object (`self._mounts`,
`self._hooks`), which persists across calls of `load`; `gen`
distinguishes closure identities of different calls.  A fresh
`Reloader()` starts with an empty watch-set (modelled from the spec:
`greins/reloader.py` is not part of the given sources). -/
def load (ur : Bool) (V : String → PyVal → Bool) (gen : Nat)
    (st0 : AppState) (units : List (UnitExec × Bool)) :
    Except PyError LoadOk :=
  let ts := mkThreads ur gen 0 units
  match mergeLoop ur V st0 [] [] ts with
  | Except.error e => Except.error e
  | Except.ok (st, rf, evs) =>
    Except.ok
      { st := st
        reloaderFiles := if ur then some rf else none
        router := { table := st.mounts }
        log := evs ++ [Ev.infoBooted, Ev.debugRoutes] }

/-- The body of a generated hook proxy (lines 43-48) and of `_do_hook`
(lines 118-120): call every handler registered for `name`, in list
order, with the same argument tuple.  The result is the invocation
trace: which handler was called with which arguments, in call order. -/
def callAll (hs : List PyVal) (args : List PyVal) :
    List (PyVal × List PyVal) :=
  match hs with
  | [] => []
  | h :: rest => (h, args) :: callAll rest args

/-- Calling the proxy for hook `name` once with arguments `args`
against registry state `st` (proxies exist exactly for the names
`init` put into `self._hooks`, so `name` is a registry key). -/
def doHook (st : AppState) (name : String) (args : List PyVal) :
    List (PyVal × List PyVal) :=
  callAll ((lookupA st.hooks name).getD []) args

/-! ## Specification-side helpers

These describe the tables the code is expected to build; they are the
comparison points of the theorems below, not translations of source
lines. -/

/-- The route table one unit's mount loop is expected to produce when
its normalized keys are distinct: each declared binding in order, key
normalized, value the wrapper created at that position. -/
def unitTableFrom (gen lid : Nat) : Nat → List (String × Nat) →
    List (String × Wrapper)
  | _, [] => []
  | idx, (r, a) :: rest =>
    (normKey r, ⟨gen, lid, idx, a⟩) :: unitTableFrom gen lid (idx + 1) rest

/-- The merged route table expected for a list of units with globally
distinct normalized keys: the units' expected tables concatenated in
thread order. -/
def allTableFrom (gen : Nat) : Nat → List UnitExec → List (String × Wrapper)
  | _, [] => []
  | lid, u :: rest =>
    unitTableFrom gen lid 0 u.mounts ++ allTableFrom gen (lid + 1) rest

/-- The loader results of a list of units, in thread order. -/
def threadsFrom (ur : Bool) (gen : Nat) : Nat → List UnitExec → List LoaderResult
  | _, [] => []
  | lid, u :: rest => runFL ur gen lid u :: threadsFrom ur gen (lid + 1) rest

/-- The handlers one unit's namespace contributes to one hook's
handler list (`load`, lines 96-103): nothing when the name is unbound
or bound to a falsy value, the bound value when it passes the
validator, nothing when the validator raises. -/
def hookAppend (V : String → PyVal → Bool) (cfg : List (String × PyVal))
    (hn : String) : List PyVal :=
  match lookupA cfg hn with
  | none => []
  | some v => if v.truthy then (if V hn v then [v] else []) else []

/-- The coordinator state after merging a list of finished threads in
order (the state component of `mergeLoop` on an all-finished list). -/
def stFold (V : String → PyVal → Bool) : AppState → List LoaderResult → AppState
  | st, [] => st
  | st, t :: rest => stFold V (mergeThread V st t).1 rest

/-- The mount-table component of the merge on its own: the hook merge
does not touch `self._mounts`. -/
def mountsFold : List (String × Wrapper) → List LoaderResult →
    List (String × Wrapper)
  | m, [] => m
  | m, t :: rest => mountsFold (t.selfMounts.foldl mergeStep (m, [])).1 rest

/-! ## Concrete inputs used by closed theorems -/

/-- A validator that accepts everything (a handler with the right
signature passes gunicorn's callable/arity validator). -/
def Vall : String → PyVal → Bool := fun _ _ => true

/-- A unit that binds the `on_starting` hook and then raises: its
namespace keeps the binding, its mount loop never runs. -/
def uFail : UnitExec :=
  { cf := "/apps/a.py"
    mounts := [("/x", 5)]
    hookBindings := [("on_starting", ⟨7, true⟩)]
    raised := true
    tbFiles := ["/apps/a.py"] }

/-- A sibling unit that completes normally with one mount. -/
def uOk : UnitExec :=
  { cf := "/apps/b.py"
    mounts := [("/b", 9)]
    hookBindings := []
    raised := false
    tbFiles := [] }

/-- A fresh coordinator state with one recognized server hook. -/
def st0c : AppState := ⟨[], initHooks ["on_starting"]⟩

/-- A clean sibling unit that also binds the `on_starting` hook. -/
def uOkHook : UnitExec :=
  { cf := "/apps/f.py"
    mounts := [("/f", 11)]
    hookBindings := [("on_starting", ⟨8, true⟩)]
    raised := false
    tbFiles := [] }

/-- A unit declaring one bare and one slash-normalized mount. -/
def uTwo : UnitExec :=
  { cf := "/apps/c.py"
    mounts := [("foo", 3), ("/bar", 4)]
    hookBindings := []
    raised := false
    tbFiles := [] }

/-- A unit whose two declared keys collide after normalization. -/
def uDup : UnitExec :=
  { cf := "/apps/e.py"
    mounts := [("x", 1), ("/x", 2)]
    hookBindings := []
    raised := false
    tbFiles := [] }

/-- A unit that binds a recognized hook name to a falsy value. -/
def uFalsy : UnitExec :=
  { cf := "/apps/d.py"
    mounts := []
    hookBindings := [("on_starting", ⟨0, false⟩)]
    raised := false
    tbFiles := [] }

/-- A unit standing for a config file whose loader thread is still
running when the merge looks at it (the `UnitExec` fields are the
outcome the abandoned thread would eventually produce). -/
def uHang : UnitExec :=
  { cf := "/apps/h.py"
    mounts := [("/h", 1)]
    hookBindings := []
    raised := false
    tbFiles := [] }

/-- A registry state in which two handlers are already registered for
`on_starting`. -/
def stHooks2 : AppState :=
  ⟨[], [("on_starting", [⟨1, true⟩, ⟨2, true⟩])]⟩

/-! ## Basic lemmas about lookups and keys -/

theorem keys_append {α : Type} (m n : List (String × α)) :
    keys (m ++ n) = keys m ++ keys n := by
  simp [keys]

theorem keys_cons {α : Type} (e : String × α) (rest : List (String × α)) :
    keys (e :: rest) = e.1 :: keys rest := rfl

theorem keys_nil {α : Type} : keys ([] : List (String × α)) = [] := rfl

theorem lookupA_eq_none {α : Type} (m : List (String × α)) (k : String) :
    lookupA m k = none ↔ k ∉ keys m := by
  induction m with
  | nil => simp [lookupA, keys_nil]
  | cons e rest ih =>
    obtain ⟨k1, v⟩ := e
    by_cases h : k1 = k
    · subst h; simp [lookupA, keys_cons]
    · simp [lookupA, keys_cons, h, ih]
      exact fun _ hk => h hk.symm

theorem lookupA_isSome {α : Type} (m : List (String × α)) (k : String) :
    (lookupA m k).isSome = true ↔ k ∈ keys m := by
  rcases h : lookupA m k with _ | v
  · simpa using (lookupA_eq_none m k).mp h
  · simp only [Option.isSome_some, true_iff]
    by_contra hk
    rw [(lookupA_eq_none m k).mpr hk] at h
    exact Option.noConfusion h

theorem lookupA_append_of_some {α : Type} (m n : List (String × α))
    (k : String) (v : α) (h : lookupA m k = some v) :
    lookupA (m ++ n) k = some v := by
  induction m with
  | nil => simp [lookupA] at h
  | cons e rest ih =>
    obtain ⟨k1, w⟩ := e
    by_cases hk : k1 = k <;> simp_all [lookupA]

theorem lookupA_append_of_none {α : Type} (m n : List (String × α))
    (k : String) (h : lookupA m k = none) :
    lookupA (m ++ n) k = lookupA n k := by
  induction m with
  | nil => simp [lookupA]
  | cons e rest ih =>
    obtain ⟨k1, w⟩ := e
    by_cases hk : k1 = k <;> simp_all [lookupA]

/-! ## The unit loader's mount loop -/

theorem procMount_eq_of_some (gen lid : Nat) (m : List (String × Wrapper))
    (evs : List Ev) (idx : Nat) (r0 : String) (a : Nat) (w0 : Wrapper)
    (h : lookupA m (normKey r0) = some w0) :
    procMount gen lid (m, evs) (idx, (r0, a)) =
      (m, (evs ++ (if hasSlash r0 then [] else [Ev.warnSlash r0])) ++
        (if w0 ≠ (⟨gen, lid, idx, a⟩ : Wrapper) then [Ev.warnDup (normKey r0)]
         else [])) := by
  simp only [procMount, h]

theorem procMount_eq_of_none (gen lid : Nat) (m : List (String × Wrapper))
    (evs : List Ev) (idx : Nat) (r0 : String) (a : Nat)
    (h : lookupA m (normKey r0) = none) :
    procMount gen lid (m, evs) (idx, (r0, a)) =
      (m ++ [(normKey r0, ⟨gen, lid, idx, a⟩)],
       evs ++ (if hasSlash r0 then [] else [Ev.warnSlash r0])) := by
  simp only [procMount, h]

theorem procMount_fst_keys (gen lid : Nat) (m : List (String × Wrapper))
    (evs : List Ev) (idx : Nat) (r0 : String) (a : Nat) (k : String) :
    k ∈ keys (procMount gen lid (m, evs) (idx, (r0, a))).1 ↔
      k ∈ keys m ∨ normKey r0 = k := by
  rcases h : lookupA m (normKey r0) with _ | w0
  · rw [procMount_eq_of_none gen lid m evs idx r0 a h]
    simp [keys_append, keys_cons, keys_nil, eq_comm]
  · rw [procMount_eq_of_some gen lid m evs idx r0 a w0 h]
    have hm : normKey r0 ∈ keys m :=
      (lookupA_isSome m (normKey r0)).mp (by simp [h])
    constructor
    · exact Or.inl
    · rintro (hk | hk)
      · exact hk
      · exact hk ▸ hm

theorem procMount_warnSlash (gen lid : Nat) (m : List (String × Wrapper))
    (evs : List Ev) (idx : Nat) (r0 : String) (a : Nat) (r : String) :
    Ev.warnSlash r ∈ (procMount gen lid (m, evs) (idx, (r0, a))).2 ↔
      Ev.warnSlash r ∈ evs ∨ (hasSlash r0 = false ∧ r0 = r) := by
  rcases h : lookupA m (normKey r0) with _ | w0
  · rw [procMount_eq_of_none gen lid m evs idx r0 a h]
    by_cases hs : hasSlash r0 <;> simp [hs, eq_comm]
  · rw [procMount_eq_of_some gen lid m evs idx r0 a w0 h]
    by_cases hs : hasSlash r0 <;>
      by_cases hw : w0 = (⟨gen, lid, idx, a⟩ : Wrapper) <;>
        simp [hs, hw, eq_comm]

theorem procMounts_keys_mem (gen lid : Nat) (l : List (String × Nat)) :
    ∀ (idx : Nat) (m : List (String × Wrapper)) (evs : List Ev) (k : String),
      k ∈ keys (procMounts gen lid idx l (m, evs)).1 ↔
        k ∈ keys m ∨ ∃ p ∈ l, normKey p.1 = k := by
  induction l with
  | nil => intro idx m evs k; simp [procMounts]
  | cons b rest ih =>
    intro idx m evs k
    obtain ⟨r0, a⟩ := b
    rcases hstep : procMount gen lid (m, evs) (idx, (r0, a)) with ⟨m1, evs1⟩
    have h1 : ∀ k1, k1 ∈ keys m1 ↔ k1 ∈ keys m ∨ normKey r0 = k1 := by
      intro k1
      have hx := procMount_fst_keys gen lid m evs idx r0 a k1
      rw [hstep] at hx
      exact hx
    simp only [procMounts, hstep]
    rw [ih (idx + 1) m1 evs1 k, h1 k]
    constructor
    · rintro ((hk | hk) | ⟨p, hp, hpk⟩)
      · exact Or.inl hk
      · exact Or.inr ⟨(r0, a), List.mem_cons_self _ _, hk⟩
      · exact Or.inr ⟨p, List.mem_cons_of_mem _ hp, hpk⟩
    · rintro (hk | ⟨p, hp, hpk⟩)
      · exact Or.inl (Or.inl hk)
      · rcases List.mem_cons.mp hp with h | h
        · subst h; exact Or.inl (Or.inr hpk)
        · exact Or.inr ⟨p, h, hpk⟩

theorem procMounts_warnSlash (gen lid : Nat) (l : List (String × Nat)) :
    ∀ (idx : Nat) (m : List (String × Wrapper)) (evs : List Ev) (r : String),
      Ev.warnSlash r ∈ (procMounts gen lid idx l (m, evs)).2 ↔
        Ev.warnSlash r ∈ evs ∨ ∃ p ∈ l, hasSlash p.1 = false ∧ p.1 = r := by
  induction l with
  | nil => intro idx m evs r; simp [procMounts]
  | cons b rest ih =>
    intro idx m evs r
    obtain ⟨r0, a⟩ := b
    rcases hstep : procMount gen lid (m, evs) (idx, (r0, a)) with ⟨m1, evs1⟩
    have h1 : Ev.warnSlash r ∈ evs1 ↔
        Ev.warnSlash r ∈ evs ∨ (hasSlash r0 = false ∧ r0 = r) := by
      have hx := procMount_warnSlash gen lid m evs idx r0 a r
      rw [hstep] at hx
      exact hx
    simp only [procMounts, hstep]
    rw [ih (idx + 1) m1 evs1 r, h1]
    constructor
    · rintro ((he | ⟨hs, hr⟩) | ⟨p, hp, hps, hpr⟩)
      · exact Or.inl he
      · exact Or.inr ⟨(r0, a), List.mem_cons_self _ _, hs, hr⟩
      · exact Or.inr ⟨p, List.mem_cons_of_mem _ hp, hps, hpr⟩
    · rintro (he | ⟨p, hp, hps, hpr⟩)
      · exact Or.inl (Or.inl he)
      · rcases List.mem_cons.mp hp with h | h
        · subst h; exact Or.inl (Or.inr ⟨hps, hpr⟩)
        · exact Or.inr ⟨p, h, hps, hpr⟩

theorem keys_unitTableFrom (gen lid : Nat) (l : List (String × Nat)) :
    ∀ idx, keys (unitTableFrom gen lid idx l) = l.map (fun p => normKey p.1) := by
  induction l with
  | nil => intro idx; rfl
  | cons b rest ih =>
    intro idx
    obtain ⟨r, a⟩ := b
    simp [unitTableFrom, keys_cons, ih]

theorem procMounts_fresh (gen lid : Nat) (l : List (String × Nat)) :
    ∀ (idx : Nat) (m : List (String × Wrapper)) (evs : List Ev),
      (∀ p ∈ l, normKey p.1 ∉ keys m) →
      (l.map (fun p => normKey p.1)).Nodup →
      (procMounts gen lid idx l (m, evs)).1 = m ++ unitTableFrom gen lid idx l := by
  induction l with
  | nil => intro idx m evs _ _; simp [procMounts, unitTableFrom]
  | cons b rest ih =>
    intro idx m evs hfresh hnd
    obtain ⟨r0, a⟩ := b
    rw [List.map_cons] at hnd
    obtain ⟨hne, hndr⟩ := List.nodup_cons.mp hnd
    have hl : lookupA m (normKey r0) = none :=
      (lookupA_eq_none m (normKey r0)).mpr (hfresh (r0, a) (List.mem_cons_self _ _))
    simp only [procMounts, unitTableFrom]
    rw [procMount_eq_of_none gen lid m evs idx r0 a hl]
    rw [ih (idx + 1) _ _ ?fresh hndr]
    · rw [List.append_assoc]
      rfl
    case fresh =>
      intro p hp
      rw [keys_append, keys_cons, keys_nil]
      simp only [List.mem_append, List.mem_singleton]
      push_neg
      refine ⟨hfresh p (List.mem_cons_of_mem _ hp), ?_⟩
      intro he
      exact hne (he ▸ List.mem_map_of_mem (fun q => normKey q.1) hp)

/-! ## The unit loader as a whole -/

theorem runFL_cf (ur : Bool) (gen lid : Nat) (u : UnitExec) :
    (runFL ur gen lid u).cf = u.cf := by
  by_cases h : u.raised <;> simp [runFL, h]

theorem runFL_cfg (ur : Bool) (gen lid : Nat) (u : UnitExec) :
    (runFL ur gen lid u).cfg = u.hookBindings := by
  by_cases h : u.raised <;> simp [runFL, h]

theorem runFL_selfMounts_raised (ur : Bool) (gen lid : Nat) (u : UnitExec)
    (h : u.raised = true) : (runFL ur gen lid u).selfMounts = [] := by
  simp [runFL, h]

theorem runFL_selfMounts_ok (ur : Bool) (gen lid : Nat) (u : UnitExec)
    (h : u.raised = false) :
    (runFL ur gen lid u).selfMounts = (procMounts gen lid 0 u.mounts ([], [])).1 := by
  simp [runFL, h]

theorem runFL_log_ok (ur : Bool) (gen lid : Nat) (u : UnitExec)
    (h : u.raised = false) :
    (runFL ur gen lid u).log =
      Ev.infoLoading (cfNameOf u.cf) :: (procMounts gen lid 0 u.mounts ([], [])).2 := by
  simp [runFL, h]

theorem runFL_keys_mem (ur : Bool) (gen lid : Nat) (u : UnitExec) (k : String) :
    k ∈ keys (runFL ur gen lid u).selfMounts ↔
      u.raised = false ∧ ∃ p ∈ u.mounts, normKey p.1 = k := by
  by_cases h : u.raised
  · rw [runFL_selfMounts_raised ur gen lid u h]
    simp [keys_nil, h]
  · rw [Bool.not_eq_true] at h
    rw [runFL_selfMounts_ok ur gen lid u h]
    rw [procMounts_keys_mem]
    simp [keys_nil, h]

theorem runFL_selfMounts_eq (ur : Bool) (gen lid : Nat) (u : UnitExec)
    (h : u.raised = false)
    (hnd : (u.mounts.map (fun p => normKey p.1)).Nodup) :
    (runFL ur gen lid u).selfMounts = unitTableFrom gen lid 0 u.mounts := by
  rw [runFL_selfMounts_ok ur gen lid u h]
  rw [procMounts_fresh gen lid u.mounts 0 [] []
    (by intro p hp; simp [keys_nil]) hnd]
  simp

/-! ## The coordinator's mount merge -/

theorem mergeStep_eq_of_some (m : List (String × Wrapper)) (evs : List Ev)
    (route : String) (v w0 : Wrapper) (h : lookupA m route = some w0) :
    mergeStep (m, evs) (route, v) =
      (m, evs ++ (if w0 ≠ v then [Ev.warnDup route] else [])) := by
  simp only [mergeStep, h]

theorem mergeStep_eq_of_none (m : List (String × Wrapper)) (evs : List Ev)
    (route : String) (v : Wrapper) (h : lookupA m route = none) :
    mergeStep (m, evs) (route, v) = (m ++ [(route, v)], evs) := by
  simp only [mergeStep, h]

theorem msFold_keys_mem (xs : List (String × Wrapper)) :
    ∀ (m : List (String × Wrapper)) (evs : List Ev) (k : String),
      k ∈ keys (xs.foldl mergeStep (m, evs)).1 ↔ k ∈ keys m ∨ k ∈ keys xs := by
  induction xs with
  | nil => intro m evs k; simp [keys_nil]
  | cons b rest ih =>
    intro m evs k
    obtain ⟨route, v⟩ := b
    rw [List.foldl_cons]
    rcases h : lookupA m route with _ | w0
    · rw [mergeStep_eq_of_none m evs route v h, ih]
      simp only [keys_append, keys_cons, keys_nil, List.mem_append,
        List.mem_singleton, List.mem_cons]
      tauto
    · rw [mergeStep_eq_of_some m evs route v w0 h, ih]
      have hm : route ∈ keys m := (lookupA_isSome m route).mp (by simp [h])
      simp only [keys_cons, List.mem_cons]
      constructor
      · rintro (hk | hk)
        · exact Or.inl hk
        · exact Or.inr (Or.inr hk)
      · rintro (hk | hk | hk)
        · exact Or.inl hk
        · exact Or.inl (hk ▸ hm)
        · exact Or.inr hk

theorem msFold_stable (xs : List (String × Wrapper)) :
    ∀ (m : List (String × Wrapper)) (evs : List Ev),
      (∀ k ∈ keys xs, k ∈ keys m) → (xs.foldl mergeStep (m, evs)).1 = m := by
  induction xs with
  | nil => intro m evs _; rfl
  | cons b rest ih =>
    intro m evs hsub
    obtain ⟨route, v⟩ := b
    have hm : route ∈ keys m := hsub route (by simp [keys_cons])
    rcases h : lookupA m route with _ | w0
    · exact absurd hm ((lookupA_eq_none m route).mp h)
    · rw [List.foldl_cons, mergeStep_eq_of_some m evs route v w0 h]
      exact ih m _ (fun k hk => hsub k (by simp [keys_cons]; exact Or.inr hk))

theorem msFold_fresh (xs : List (String × Wrapper)) :
    ∀ (m : List (String × Wrapper)) (evs : List Ev),
      (∀ k ∈ keys xs, k ∉ keys m) → (keys xs).Nodup →
      xs.foldl mergeStep (m, evs) = (m ++ xs, evs) := by
  induction xs with
  | nil => intro m evs _ _; simp
  | cons b rest ih =>
    intro m evs hfresh hnd
    obtain ⟨route, v⟩ := b
    rw [keys_cons] at hnd
    obtain ⟨hne, hndr⟩ := List.nodup_cons.mp hnd
    have h : lookupA m route = none :=
      (lookupA_eq_none m route).mpr (hfresh route (by simp [keys_cons]))
    rw [List.foldl_cons, mergeStep_eq_of_none m evs route v h]
    rw [ih (m ++ [(route, v)]) evs ?fresh hndr]
    · rw [List.append_assoc]
      rfl
    case fresh =>
      intro k hk
      rw [keys_append, keys_cons, keys_nil]
      simp only [List.mem_append, List.mem_singleton]
      push_neg
      refine ⟨hfresh k (by simp [keys_cons]; exact Or.inr hk), ?_⟩
      intro he
      exact hne (he ▸ hk)

theorem msFold_lookup_pres (xs : List (String × Wrapper)) :
    ∀ (m : List (String × Wrapper)) (evs : List Ev) (k : String) (w : Wrapper),
      lookupA m k = some w → lookupA (xs.foldl mergeStep (m, evs)).1 k = some w := by
  induction xs with
  | nil => intro m evs k w h; exact h
  | cons b rest ih =>
    intro m evs k w h
    obtain ⟨route, v⟩ := b
    rw [List.foldl_cons]
    rcases hr : lookupA m route with _ | w0
    · rw [mergeStep_eq_of_none m evs route v hr]
      exact ih _ _ k w (lookupA_append_of_some m [(route, v)] k w h)
    · rw [mergeStep_eq_of_some m evs route v w0 hr]
      exact ih _ _ k w h

theorem msFold_events (xs : List (String × Wrapper)) :
    ∀ (m : List (String × Wrapper)) (evs : List Ev) (ev : Ev),
      ev ∈ (xs.foldl mergeStep (m, evs)).2 →
      ev ∈ evs ∨ ∃ r, ev = Ev.warnDup r := by
  induction xs with
  | nil => intro m evs ev h; exact Or.inl h
  | cons b rest ih =>
    intro m evs ev h
    obtain ⟨route, v⟩ := b
    rw [List.foldl_cons] at h
    rcases hr : lookupA m route with _ | w0
    · rw [mergeStep_eq_of_none m evs route v hr] at h
      exact ih _ _ ev h
    · rw [mergeStep_eq_of_some m evs route v w0 hr] at h
      rcases ih _ _ ev h with he | hd
      · rcases List.mem_append.mp he with he1 | he2
        · exact Or.inl he1
        · by_cases hw : w0 = v <;> simp [hw] at he2
          · exact Or.inr ⟨route, he2⟩
      · exact Or.inr hd

/-! ## The coordinator's hook merge -/

theorem hookStep_name (V : String → PyVal → Bool) (cf : String)
    (cfg : List (String × PyVal)) (e : String × List PyVal) :
    (hookStep V cf cfg e).1.1 = e.1 := by
  rcases h : lookupA cfg e.1 with _ | v
  · simp [hookStep, h]
  · by_cases ht : v.truthy <;> by_cases hv : V e.1 v <;>
      simp [hookStep, h, ht, hv]

theorem hookStep_absent (V : String → PyVal → Bool) (cf : String)
    (cfg : List (String × PyVal)) (e : String × List PyVal)
    (h : lookupA cfg e.1 = none) :
    hookStep V cf cfg e = (e, []) := by
  simp [hookStep, h]

theorem hookStep_falsy (V : String → PyVal → Bool) (cf : String)
    (cfg : List (String × PyVal)) (e : String × List PyVal) (v : PyVal)
    (hb : lookupA cfg e.1 = some v) (hf : v.truthy = false) :
    hookStep V cf cfg e = (e, []) := by
  simp [hookStep, hb, hf]

theorem hookStep_events (V : String → PyVal → Bool) (cf : String)
    (cfg : List (String × PyVal)) (e : String × List PyVal) (ev : Ev)
    (h : ev ∈ (hookStep V cf cfg e).2) :
    (∃ oid, ev = Ev.validateCall e.1 oid) ∨ ev = Ev.hookErr e.1 cf := by
  rcases hb : lookupA cfg e.1 with _ | v
  · rw [hookStep_absent V cf cfg e hb] at h
    simp at h
  · by_cases ht : v.truthy
    · by_cases hv : V e.1 v <;> simp [hookStep, hb, ht, hv] at h
      · exact Or.inl ⟨v.oid, h⟩
      · rcases h with h | h
        · exact Or.inl ⟨v.oid, h⟩
        · exact Or.inr h
    · rw [hookStep_falsy V cf cfg e v hb (by simpa using ht)] at h
      simp at h

theorem mergeHooks_fst (V : String → PyVal → Bool) (cf : String)
    (cfg : List (String × PyVal)) (hooks : List (String × List PyVal)) :
    (mergeHooks V cf cfg hooks).1 = hooks.map (fun e => (hookStep V cf cfg e).1) := by
  induction hooks with
  | nil => rfl
  | cons e rest ih => simp [mergeHooks, ih]

theorem mergeHooks_events (V : String → PyVal → Bool) (cf : String)
    (cfg : List (String × PyVal)) (hooks : List (String × List PyVal)) (ev : Ev)
    (h : ev ∈ (mergeHooks V cf cfg hooks).2) :
    ∃ e ∈ hooks, ev ∈ (hookStep V cf cfg e).2 := by
  induction hooks with
  | nil => simp [mergeHooks] at h
  | cons e rest ih =>
    simp only [mergeHooks, List.mem_append] at h
    rcases h with h | h
    · exact ⟨e, List.mem_cons_self _ _, h⟩
    · obtain ⟨e1, he1, hev⟩ := ih h
      exact ⟨e1, List.mem_cons_of_mem _ he1, hev⟩

theorem lookupA_map_name_pres {α β : Type} (f : String × α → String × β)
    (hf : ∀ e, (f e).1 = e.1) (m : List (String × α)) (k : String) :
    lookupA (m.map f) k = (lookupA m k).map (fun v => (f (k, v)).2) := by
  induction m with
  | nil => rfl
  | cons e rest ih =>
    obtain ⟨k1, v1⟩ := e
    simp only [List.map_cons, lookupA, hf (k1, v1)]
    by_cases hk : k1 = k
    · subst hk; simp
    · simp [hk, ih]

theorem mergeHooks_lookup (V : String → PyVal → Bool) (cf : String)
    (cfg : List (String × PyVal)) (hooks : List (String × List PyVal))
    (hn : String) :
    lookupA (mergeHooks V cf cfg hooks).1 hn =
      (lookupA hooks hn).map (fun hs => (hookStep V cf cfg (hn, hs)).1.2) := by
  rw [mergeHooks_fst]
  exact lookupA_map_name_pres (fun e => (hookStep V cf cfg e).1)
    (fun e => hookStep_name V cf cfg e) hooks hn

theorem hookStep_snd_append (V : String → PyVal → Bool) (cf : String)
    (cfg : List (String × PyVal)) (hn : String) (hs : List PyVal) :
    (hookStep V cf cfg (hn, hs)).1.2 = hs ++ hookAppend V cfg hn := by
  unfold hookStep hookAppend
  rcases lookupA cfg hn with _ | v
  · simp
  · by_cases ht : v.truthy <;> by_cases hv : V hn v <;> simp [ht, hv]

/-! ## Merging one thread, and the merge loop -/

theorem mergeThread_mounts (V : String → PyVal → Bool) (st : AppState)
    (t : LoaderResult) :
    (mergeThread V st t).1.mounts =
      (t.selfMounts.foldl mergeStep (st.mounts, [])).1 := rfl

theorem mergeThread_hooks (V : String → PyVal → Bool) (st : AppState)
    (t : LoaderResult) :
    (mergeThread V st t).1.hooks = (mergeHooks V t.cf t.cfg st.hooks).1 := rfl

theorem mergeThread_events (V : String → PyVal → Bool) (st : AppState)
    (t : LoaderResult) (ev : Ev) (h : ev ∈ (mergeThread V st t).2) :
    ev ∈ (t.selfMounts.foldl mergeStep (st.mounts, [])).2 ∨
      ev ∈ (mergeHooks V t.cf t.cfg st.hooks).2 := by
  simp only [mergeThread] at h
  exact List.mem_append.mp h

theorem mergeThread_hooks_lookup (V : String → PyVal → Bool) (st : AppState)
    (t : LoaderResult) (hn : String) :
    lookupA (mergeThread V st t).1.hooks hn =
      (lookupA st.hooks hn).map (fun hs => hs ++ hookAppend V t.cfg hn) := by
  rw [mergeThread_hooks, mergeHooks_lookup]
  rcases lookupA st.hooks hn with _ | hs
  · rfl
  · show some ((hookStep V t.cf t.cfg (hn, hs)).1.2) = some (hs ++ hookAppend V t.cfg hn)
    rw [hookStep_snd_append]

theorem stFold_mounts (V : String → PyVal → Bool) (ts : List LoaderResult) :
    ∀ st : AppState, (stFold V st ts).mounts = mountsFold st.mounts ts := by
  induction ts with
  | nil => intro st; rfl
  | cons t rest ih =>
    intro st
    simp only [stFold, mountsFold]
    rw [ih]
    rfl

theorem mkThreads_true (ur : Bool) (gen : Nat) (us : List UnitExec) :
    ∀ lid, mkThreads ur gen lid (us.map (fun u => (u, true))) =
      (threadsFrom ur gen lid us).map (fun t => (t, true)) := by
  induction us with
  | nil => intro lid; rfl
  | cons u rest ih => intro lid; simp [mkThreads, threadsFrom, ih]

theorem mergeLoop_allfin (ur : Bool) (V : String → PyVal → Bool)
    (ts : List LoaderResult) :
    ∀ (st : AppState) (rf : List String) (evs : List Ev),
      ∃ evs2, mergeLoop ur V st rf evs (ts.map (fun t => (t, true))) =
        Except.ok (stFold V st ts, rf, evs2) := by
  induction ts with
  | nil => intro st rf evs; exact ⟨evs, rfl⟩
  | cons t rest ih =>
    intro st rf evs
    obtain ⟨evs2, h2⟩ := ih (mergeThread V st t).1 rf (evs ++ (mergeThread V st t).2)
    exact ⟨evs2, by simpa [mergeLoop, stFold] using h2⟩

theorem load_allfin (ur : Bool) (V : String → PyVal → Bool) (gen : Nat)
    (st0 : AppState) (us : List UnitExec) :
    ∃ o, load ur V gen st0 (us.map (fun u => (u, true))) = Except.ok o ∧
      o.st = stFold V st0 (threadsFrom ur gen 0 us) ∧
      o.router.table = o.st.mounts ∧
      o.reloaderFiles = (if ur then some ([] : List String) else none) ∧
      Ev.infoBooted ∈ o.log := by
  obtain ⟨evs2, heq⟩ := mergeLoop_allfin ur V (threadsFrom ur gen 0 us) st0 [] []
  refine ⟨{ st := stFold V st0 (threadsFrom ur gen 0 us)
            reloaderFiles := if ur then some [] else none
            router := { table := (stFold V st0 (threadsFrom ur gen 0 us)).mounts }
            log := evs2 ++ [Ev.infoBooted, Ev.debugRoutes] },
    ?_, rfl, rfl, rfl, by simp⟩
  simp only [load]
  rw [mkThreads_true, heq]

/-! ## The merged mount table -/

theorem mountsFold_keys_mem (ts : List LoaderResult) :
    ∀ (m : List (String × Wrapper)) (k : String),
      k ∈ keys (mountsFold m ts) ↔
        k ∈ keys m ∨ ∃ t ∈ ts, k ∈ keys t.selfMounts := by
  induction ts with
  | nil => intro m k; simp [mountsFold]
  | cons t rest ih =>
    intro m k
    simp only [mountsFold]
    rw [ih, msFold_keys_mem]
    constructor
    · rintro ((hk | hk) | ⟨t1, ht1, hk⟩)
      · exact Or.inl hk
      · exact Or.inr ⟨t, List.mem_cons_self _ _, hk⟩
      · exact Or.inr ⟨t1, List.mem_cons_of_mem _ ht1, hk⟩
    · rintro (hk | ⟨t1, ht1, hk⟩)
      · exact Or.inl (Or.inl hk)
      · rcases List.mem_cons.mp ht1 with h | h
        · subst h; exact Or.inl (Or.inr hk)
        · exact Or.inr ⟨t1, h, hk⟩

theorem mountsFold_stable (ts : List LoaderResult) :
    ∀ m : List (String × Wrapper),
      (∀ t ∈ ts, ∀ k ∈ keys t.selfMounts, k ∈ keys m) → mountsFold m ts = m := by
  induction ts with
  | nil => intro m _; rfl
  | cons t rest ih =>
    intro m hsub
    simp only [mountsFold]
    rw [msFold_stable t.selfMounts m [] (hsub t (List.mem_cons_self _ _))]
    exact ih m (fun t1 ht1 => hsub t1 (List.mem_cons_of_mem _ ht1))

theorem mountsFold_units (ur : Bool) (gen : Nat) (us : List UnitExec) :
    ∀ (lid : Nat) (m : List (String × Wrapper)),
      (∀ u ∈ us, u.raised = false) →
      (keys m ++ keys (allTableFrom gen lid us)).Nodup →
      mountsFold m (threadsFrom ur gen lid us) = m ++ allTableFrom gen lid us := by
  induction us with
  | nil => intro lid m _ _; simp [threadsFrom, mountsFold, allTableFrom]
  | cons u rest ih =>
    intro lid m hok hnd
    have hu : u.raised = false := hok u (List.mem_cons_self _ _)
    have hB : keys (unitTableFrom gen lid 0 u.mounts) =
        u.mounts.map (fun p => normKey p.1) :=
      keys_unitTableFrom gen lid u.mounts 0
    simp only [allTableFrom, keys_append] at hnd
    obtain ⟨hndm, hndBC, hdisj⟩ := List.nodup_append.mp hnd
    obtain ⟨hndB, hndC, hdisjBC⟩ := List.nodup_append.mp hndBC
    have hself : (runFL ur gen lid u).selfMounts = unitTableFrom gen lid 0 u.mounts :=
      runFL_selfMounts_eq ur gen lid u hu (hB ▸ hndB)
    simp only [threadsFrom, mountsFold, allTableFrom]
    have hfresh : ∀ k ∈ keys (runFL ur gen lid u).selfMounts, k ∉ keys m := by
      rw [hself]
      intro k hk hkA
      exact hdisj hkA (List.mem_append.mpr (Or.inl hk))
    rw [msFold_fresh _ m [] hfresh (by rw [hself]; exact hndB), hself]
    have hok2 : ∀ u1 ∈ rest, u1.raised = false :=
      fun u1 hu1 => hok u1 (List.mem_cons_of_mem _ hu1)
    have hnd2 : (keys (m ++ unitTableFrom gen lid 0 u.mounts) ++
        keys (allTableFrom gen (lid + 1) rest)).Nodup := by
      rw [keys_append, List.append_assoc]
      exact List.nodup_append.mpr ⟨hndm,
        List.nodup_append.mpr ⟨hndB, hndC, hdisjBC⟩, hdisj⟩
    show mountsFold (m ++ unitTableFrom gen lid 0 u.mounts)
        (threadsFrom ur gen (lid + 1) rest) =
      m ++ (unitTableFrom gen lid 0 u.mounts ++ allTableFrom gen (lid + 1) rest)
    rw [ih (lid + 1) (m ++ unitTableFrom gen lid 0 u.mounts) hok2 hnd2,
      List.append_assoc]

/-! ## Thread lists -/

theorem threadsFrom_keys (ur : Bool) (gen : Nat) (us : List UnitExec) :
    ∀ (lid : Nat) (t : LoaderResult), t ∈ threadsFrom ur gen lid us →
      ∀ k ∈ keys t.selfMounts,
        ∃ u ∈ us, u.raised = false ∧ ∃ p ∈ u.mounts, normKey p.1 = k := by
  induction us with
  | nil => intro lid t ht; simp [threadsFrom] at ht
  | cons u rest ih =>
    intro lid t ht k hk
    rcases List.mem_cons.mp ht with h | h
    · subst h
      obtain ⟨hraised, p, hp, hpk⟩ := (runFL_keys_mem ur gen lid u k).mp hk
      exact ⟨u, List.mem_cons_self _ _, hraised, p, hp, hpk⟩
    · obtain ⟨u1, hu1, hr1, hp1⟩ := ih (lid + 1) t h k hk
      exact ⟨u1, List.mem_cons_of_mem _ hu1, hr1, hp1⟩

theorem threadsFrom_keys_all (ur : Bool) (gen : Nat) (us : List UnitExec) :
    ∀ (lid : Nat) (u : UnitExec), u ∈ us → u.raised = false →
      ∀ p ∈ u.mounts,
        ∃ t ∈ threadsFrom ur gen lid us, normKey p.1 ∈ keys t.selfMounts := by
  induction us with
  | nil => intro lid u hu; simp at hu
  | cons u0 rest ih =>
    intro lid u hu hr p hp
    rcases List.mem_cons.mp hu with h | h
    · subst h
      refine ⟨runFL ur gen lid u, List.mem_cons_self _ _, ?_⟩
      exact (runFL_keys_mem ur gen lid u (normKey p.1)).mpr ⟨hr, p, hp, rfl⟩
    · obtain ⟨t, ht, hkt⟩ := ih (lid + 1) u h hr p hp
      exact ⟨t, List.mem_cons_of_mem _ ht, hkt⟩

/-! ## The hook proxy -/

theorem callAll_length (hs : List PyVal) (args : List PyVal) :
    (callAll hs args).length = hs.length := by
  induction hs with
  | nil => rfl
  | cons h rest ih => simp [callAll, ih]

theorem callAll_getElem (hs : List PyVal) (args : List PyVal) :
    ∀ i : Nat, (callAll hs args)[i]? = hs[i]?.map (fun h0 => (h0, args)) := by
  induction hs with
  | nil => intro i; simp [callAll]
  | cons h rest ih =>
    intro i
    cases i with
    | zero => simp [callAll]
    | succ j => simp [callAll, ih j]

/-! ## Falsy hook bindings produce no hook events -/

theorem hook_events_name_falsy (V : String → PyVal → Bool) (st : AppState)
    (t : LoaderResult) (hn : String) (v : PyVal)
    (hb : lookupA t.cfg hn = some v) (hf : v.truthy = false) (ev : Ev)
    (hmem : ev ∈ (mergeThread V st t).2) :
    (∀ oid, ev ≠ Ev.validateCall hn oid) ∧ ev ≠ Ev.hookErr hn t.cf := by
  rcases mergeThread_events V st t ev hmem with h | h
  · rcases msFold_events t.selfMounts st.mounts [] ev h with h0 | ⟨r, hr⟩
    · simp at h0
    · subst hr
      exact ⟨fun oid => by simp, by simp⟩
  · obtain ⟨e, _, hev⟩ := mergeHooks_events V t.cf t.cfg st.hooks ev h
    rcases hookStep_events V t.cf t.cfg e ev hev with ⟨oid, hv⟩ | hv
    · subst hv
      constructor
      · intro oid2 hcontra
        have hehn : e.1 = hn := (Ev.validateCall.injEq _ _ _ _ ▸ hcontra).1
        rw [hookStep_falsy V t.cf t.cfg e v (hehn ▸ hb) hf] at hev
        simp at hev
      · intro hcontra; simp at hcontra
    · subst hv
      constructor
      · intro oid hcontra; simp at hcontra
      · intro hcontra
        have hehn : e.1 = hn := (Ev.hookErr.injEq _ _ _ _ ▸ hcontra).1
        rw [hookStep_falsy V t.cf t.cfg e v (hehn ▸ hb) hf] at hev
        simp at hev

/-! ## Claims -/

/-- C1 (counterexample): the claim says a unit whose execution raised
contributes zero handlers to the hook registry.  In the code, `load`
reads hook bindings out of the thread's namespace `t.cfg` (line 97)
whether or not `run` raised, and the namespace keeps bindings made
before the exception.  Here `uFail` binds `on_starting` and then
raises; after the load the registry holds exactly its handler. -/
theorem C1_fault_isolation_cex :
    uFail.raised = true ∧
    lookupA uFail.hookBindings "on_starting" = some ⟨7, true⟩ ∧
    (load false Vall 0 st0c [(uFail, true), (uOk, true)]).map
        (fun o => lookupA o.st.hooks "on_starting") =
      Except.ok (some [⟨7, true⟩]) := ⟨rfl, rfl, rfl⟩

/-- C1 (amended): a unit whose execution raised contributes zero
entries to the merged route table, and every sibling merged afterwards
is unaffected by the failure: it produces exactly the mount table it
would have produced without the failed unit, and its hook merge still
appends, per hook name, exactly the handlers determined by the
sibling's own namespace (`hookAppend`) — the same contribution it
would have made without the failed unit.  However, the failed unit's
namespace (its hook bindings made before the exception) also goes
through the hook merge, so it may contribute hook handlers. -/
theorem C1_fault_isolation_amended (ur : Bool) (V : String → PyVal → Bool)
    (gen lidf : Nat) (st : AppState) (u : UnitExec) (hr : u.raised = true) :
    (mergeThread V st (runFL ur gen lidf u)).1.mounts = st.mounts ∧
    (mergeThread V st (runFL ur gen lidf u)).1.hooks =
      (mergeHooks V u.cf u.hookBindings st.hooks).1 ∧
    (∀ (s : UnitExec) (lids : Nat),
      (mergeThread V (mergeThread V st (runFL ur gen lidf u)).1
          (runFL ur gen lids s)).1.mounts =
        (mergeThread V st (runFL ur gen lids s)).1.mounts) ∧
    ∀ (s : UnitExec) (lids : Nat) (hn : String),
      lookupA (mergeThread V (mergeThread V st (runFL ur gen lidf u)).1
          (runFL ur gen lids s)).1.hooks hn =
        (lookupA (mergeThread V st (runFL ur gen lidf u)).1.hooks hn).map
          (fun hs => hs ++ hookAppend V s.hookBindings hn) ∧
      lookupA (mergeThread V st (runFL ur gen lids s)).1.hooks hn =
        (lookupA st.hooks hn).map
          (fun hs => hs ++ hookAppend V s.hookBindings hn) := by
  have hmounts : (mergeThread V st (runFL ur gen lidf u)).1.mounts = st.mounts := by
    rw [mergeThread_mounts, runFL_selfMounts_raised ur gen lidf u hr]
    rfl
  refine ⟨hmounts, ?_, ?_, ?_⟩
  · rw [mergeThread_hooks, runFL_cf, runFL_cfg]
  · intro s lids
    rw [mergeThread_mounts V ((mergeThread V st (runFL ur gen lidf u)).1)
        (runFL ur gen lids s), hmounts,
      mergeThread_mounts V st (runFL ur gen lids s)]
  · intro s lids hn
    constructor
    · rw [mergeThread_hooks_lookup, runFL_cfg]
    · rw [mergeThread_hooks_lookup, runFL_cfg]

/-- C1 (witness for the amended theorem) at `uFail`, plus a concrete
run showing the sibling-hooks guarantee: after the load of the failed
unit followed by the clean sibling `uOkHook`, the registry holds the
leaked handler of `uFail` and then the sibling's handler — the
sibling's hook was still merged. -/
theorem C1_fault_isolation_witness :
    uFail.raised = true ∧
    ((mergeThread Vall st0c (runFL false 0 0 uFail)).1.mounts = st0c.mounts ∧
     (mergeThread Vall st0c (runFL false 0 0 uFail)).1.hooks =
       (mergeHooks Vall uFail.cf uFail.hookBindings st0c.hooks).1 ∧
     (∀ (s : UnitExec) (lids : Nat),
       (mergeThread Vall (mergeThread Vall st0c (runFL false 0 0 uFail)).1
           (runFL false 0 lids s)).1.mounts =
         (mergeThread Vall st0c (runFL false 0 lids s)).1.mounts) ∧
     ∀ (s : UnitExec) (lids : Nat) (hn : String),
       lookupA (mergeThread Vall (mergeThread Vall st0c (runFL false 0 0 uFail)).1
           (runFL false 0 lids s)).1.hooks hn =
         (lookupA (mergeThread Vall st0c (runFL false 0 0 uFail)).1.hooks hn).map
           (fun hs => hs ++ hookAppend Vall s.hookBindings hn) ∧
       lookupA (mergeThread Vall st0c (runFL false 0 lids s)).1.hooks hn =
         (lookupA st0c.hooks hn).map
           (fun hs => hs ++ hookAppend Vall s.hookBindings hn)) ∧
    (load false Vall 0 st0c [(uFail, true), (uOkHook, true)]).map
        (fun o => (lookupA o.st.hooks "on_starting",
          lookupA o.router.table "/f")) =
      Except.ok (some [⟨7, true⟩, ⟨8, true⟩], some ⟨0, 1, 0, 11⟩) :=
  ⟨rfl, C1_fault_isolation_amended false Vall 0 0 st0c uFail rfl, rfl⟩

/-- C2 (code bug): when a loader thread is still alive at merge time,
line 109 evaluates `t.cf()` — calling a string — so a `TypeError`
escapes `load` instead of the claimed error log and normal return.
Here the first unit finished (and would have merged) but the second is
still running, and `load` raises. -/
theorem C2_timeout_typeerror :
    load false Vall 0 st0c [(uOk, true), (uHang, false)] =
      Except.error PyError.strNotCallable := rfl

/-- C3: for units that all complete without raising and whose
normalized declared keys are globally distinct, the merged route table
is exactly the concatenation, in thread order, of each unit's declared
bindings — each normalized key mapped to the wrapper created for its
declaring binding (`allTableFrom`). -/
theorem C3_disjoint_completeness (ur : Bool) (V : String → PyVal → Bool)
    (gen : Nat) (hooks0 : List (String × List PyVal)) (us : List UnitExec)
    (hok : ∀ u ∈ us, u.raised = false)
    (hnd : (keys (allTableFrom gen 0 us)).Nodup) :
    ∃ o, load ur V gen ⟨[], hooks0⟩ (us.map (fun u => (u, true))) = Except.ok o ∧
      o.router.table = allTableFrom gen 0 us := by
  obtain ⟨o, heq, hst, htab, _, _⟩ := load_allfin ur V gen ⟨[], hooks0⟩ us
  refine ⟨o, heq, ?_⟩
  rw [htab, hst, stFold_mounts]
  show mountsFold [] (threadsFrom ur gen 0 us) = allTableFrom gen 0 us
  rw [mountsFold_units ur gen us 0 [] hok (by rw [keys_nil, List.nil_append]; exact hnd)]
  exact List.nil_append _

/-- C3 (witness) with two units, one of which needs normalization. -/
theorem C3_disjoint_completeness_witness :
    (∀ u ∈ [uOk, uTwo], u.raised = false) ∧
    (keys (allTableFrom 0 0 [uOk, uTwo])).Nodup ∧
    ∃ o, load false Vall 0 ⟨[], initHooks ["on_starting"]⟩
        ([uOk, uTwo].map (fun u => (u, true))) = Except.ok o ∧
      o.router.table = allTableFrom 0 0 [uOk, uTwo] :=
  ⟨by decide, by decide,
    C3_disjoint_completeness false Vall 0 (initHooks ["on_starting"])
      [uOk, uTwo] (by decide) (by decide)⟩

/-- C4: duplicate-prefix resolution.  (1) Within one unit's mount loop,
a binding whose normalized key is already present leaves the unit's
mount table unchanged (the first binding is kept) and, when the stored
wrapper differs from the freshly created one, logs a duplicate-route
warning.  (2) The coordinator's merge has the same `setdefault`
behaviour for keys already in the global table.  (3) Duplicates never
abort the load: any all-finished load returns a router normally. -/
theorem C4_duplicate_first_wins :
    (∀ (gen lid : Nat) (m : List (String × Wrapper)) (evs : List Ev)
        (idx : Nat) (r0 : String) (a : Nat) (w0 : Wrapper),
      lookupA m (normKey r0) = some w0 →
        (procMount gen lid (m, evs) (idx, (r0, a))).1 = m ∧
        (w0 ≠ (⟨gen, lid, idx, a⟩ : Wrapper) →
          Ev.warnDup (normKey r0) ∈
            (procMount gen lid (m, evs) (idx, (r0, a))).2)) ∧
    (∀ (m : List (String × Wrapper)) (evs : List Ev) (route : String)
        (v w0 : Wrapper),
      lookupA m route = some w0 →
        (mergeStep (m, evs) (route, v)).1 = m ∧
        (w0 ≠ v → Ev.warnDup route ∈ (mergeStep (m, evs) (route, v)).2)) ∧
    (∀ (ur : Bool) (V : String → PyVal → Bool) (gen : Nat) (st0 : AppState)
        (us : List UnitExec),
      ∃ o, load ur V gen st0 (us.map (fun u => (u, true))) = Except.ok o) := by
  refine ⟨?_, ?_, ?_⟩
  · intro gen lid m evs idx r0 a w0 h
    rw [procMount_eq_of_some gen lid m evs idx r0 a w0 h]
    exact ⟨rfl, fun hw => by simp [hw]⟩
  · intro m evs route v w0 h
    rw [mergeStep_eq_of_some m evs route v w0 h]
    exact ⟨rfl, fun hw => by simp [hw]⟩
  · intro ur V gen st0 us
    obtain ⟨o, heq, _⟩ := load_allfin ur V gen st0 us
    exact ⟨o, heq⟩

/-- C4 (witness): a within-unit duplicate via normalization collision,
a cross-unit duplicate at merge, and an all-finished load with a
duplicate-declaring unit that still boots. -/
theorem C4_duplicate_first_wins_witness :
    ((procMount 0 0 ([(normKey "x", ⟨0, 0, 0, 1⟩)], []) (1, ("x", 2))).1 =
        [(normKey "x", ⟨0, 0, 0, 1⟩)] ∧
      Ev.warnDup (normKey "x") ∈
        (procMount 0 0 ([(normKey "x", ⟨0, 0, 0, 1⟩)], []) (1, ("x", 2))).2) ∧
    ((mergeStep ([("/y", ⟨0, 0, 0, 1⟩)], []) ("/y", ⟨0, 1, 0, 1⟩)).1 =
        [("/y", ⟨0, 0, 0, 1⟩)] ∧
      Ev.warnDup "/y" ∈
        (mergeStep ([("/y", ⟨0, 0, 0, 1⟩)], []) ("/y", ⟨0, 1, 0, 1⟩)).2) ∧
    ∃ o, load false Vall 0 st0c ([uDup].map (fun u => (u, true))) =
      Except.ok o := by
  obtain ⟨h1, h2, h3⟩ := C4_duplicate_first_wins
  refine ⟨?_, ?_, h3 false Vall 0 st0c [uDup]⟩
  · obtain ⟨ha, hb⟩ := h1 0 0 [(normKey "x", ⟨0, 0, 0, 1⟩)] [] 1 "x" 2 ⟨0, 0, 0, 1⟩
      (by decide)
    exact ⟨ha, hb (by decide)⟩
  · obtain ⟨ha, hb⟩ := h2 [("/y", ⟨0, 0, 0, 1⟩)] [] "/y" ⟨0, 1, 0, 1⟩ ⟨0, 0, 0, 1⟩
      (by decide)
    exact ⟨ha, hb (by decide)⟩

/-- C5: for every binding a non-raising unit declares, a key without a
leading slash gets one prepended (and the loader logs the warning with
the original key), while a key that already starts with a slash is
stored unchanged and gets no such warning. -/
theorem C5_normalization (ur : Bool) (gen lid : Nat) (u : UnitExec)
    (r0 : String) (a : Nat) (h : u.raised = false) (hm : (r0, a) ∈ u.mounts) :
    (hasSlash r0 = false →
      normKey r0 = "/" ++ r0 ∧
      normKey r0 ∈ keys (runFL ur gen lid u).selfMounts ∧
      Ev.warnSlash r0 ∈ (runFL ur gen lid u).log) ∧
    (hasSlash r0 = true →
      normKey r0 = r0 ∧
      r0 ∈ keys (runFL ur gen lid u).selfMounts ∧
      Ev.warnSlash r0 ∉ (runFL ur gen lid u).log) := by
  have hkey : normKey r0 ∈ keys (runFL ur gen lid u).selfMounts :=
    (runFL_keys_mem ur gen lid u (normKey r0)).mpr ⟨h, (r0, a), hm, rfl⟩
  constructor
  · intro hs
    refine ⟨by simp [normKey, hs], hkey, ?_⟩
    rw [runFL_log_ok ur gen lid u h]
    refine List.mem_cons_of_mem _ ?_
    exact (procMounts_warnSlash gen lid u.mounts 0 [] [] r0).mpr
      (Or.inr ⟨(r0, a), hm, hs, rfl⟩)
  · intro hs
    refine ⟨by simp [normKey, hs], by simpa [normKey, hs] using hkey, ?_⟩
    rw [runFL_log_ok ur gen lid u h]
    intro hmem
    rcases List.mem_cons.mp hmem with hc | hc
    · exact Ev.noConfusion hc
    · obtain ⟨p, _, hps, hpr⟩ :=
        ((procMounts_warnSlash gen lid u.mounts 0 [] [] r0).mp hc).resolve_left
          (by simp)
      rw [hpr] at hps
      rw [hps] at hs
      exact Bool.noConfusion hs

/-- C5 (witness): `uTwo` declares bare `foo` (stored as `/foo`, with a
warning) and `/bar` (stored unchanged, no warning). -/
theorem C5_normalization_witness :
    (normKey "foo" = "/" ++ "foo" ∧
      normKey "foo" ∈ keys (runFL false 0 0 uTwo).selfMounts ∧
      Ev.warnSlash "foo" ∈ (runFL false 0 0 uTwo).log) ∧
    (normKey "/bar" = "/bar" ∧
      "/bar" ∈ keys (runFL false 0 0 uTwo).selfMounts ∧
      Ev.warnSlash "/bar" ∉ (runFL false 0 0 uTwo).log) :=
  ⟨(C5_normalization false 0 0 uTwo "foo" 3 rfl (by decide)).1 (by decide),
   (C5_normalization false 0 0 uTwo "/bar" 4 rfl (by decide)).2 (by decide)⟩

/-- C6: calling a hook's proxy once invokes exactly the handlers
registered for that name, one call each, in registration order, each
with the same argument tuple. -/
theorem C6_hook_fanout (st : AppState) (name : String) (args : List PyVal)
    (hs : List PyVal) (h : lookupA st.hooks name = some hs) :
    (doHook st name args).length = hs.length ∧
    ∀ i : Nat, (doHook st name args)[i]? = hs[i]?.map (fun h0 => (h0, args)) := by
  unfold doHook
  rw [h]
  exact ⟨callAll_length hs args, callAll_getElem hs args⟩

/-- C6 (witness): two registered handlers are both invoked, first one
first, with the same arguments. -/
theorem C6_hook_fanout_witness :
    (doHook stHooks2 "on_starting" [⟨9, true⟩]).length = 2 ∧
    (doHook stHooks2 "on_starting" [⟨9, true⟩])[0]? =
      some (⟨1, true⟩, [⟨9, true⟩]) ∧
    (doHook stHooks2 "on_starting" [⟨9, true⟩])[1]? =
      some (⟨2, true⟩, [⟨9, true⟩]) := by
  have h := C6_hook_fanout stHooks2 "on_starting" [⟨9, true⟩]
    [⟨1, true⟩, ⟨2, true⟩] rfl
  exact ⟨h.1, h.2 0, h.2 1⟩

/-- C7: running `load` twice on the same application object with the
same units (deterministic units, no file changes, everything finishing
in time) returns two routers whose tables are identical — same key
set, and the very same stored wrapper per key, because the second
run's freshly created wrappers all lose the `setdefault` to the
first run's entries kept in `self._mounts`. -/
theorem C7_idempotent_reload (ur : Bool) (V : String → PyVal → Bool)
    (g1 g2 : Nat) (st0 : AppState) (us : List UnitExec) :
    ∃ o1 o2,
      load ur V g1 st0 (us.map (fun u => (u, true))) = Except.ok o1 ∧
      load ur V g2 o1.st (us.map (fun u => (u, true))) = Except.ok o2 ∧
      o2.router.table = o1.router.table ∧
      keys o2.router.table = keys o1.router.table ∧
      ∀ k, lookupA o2.router.table k = lookupA o1.router.table k := by
  obtain ⟨o1, h1, hst1, htab1, _, _⟩ := load_allfin ur V g1 st0 us
  obtain ⟨o2, h2, hst2, htab2, _, _⟩ := load_allfin ur V g2 o1.st us
  have hstable : mountsFold o1.st.mounts (threadsFrom ur g2 0 us) =
      o1.st.mounts := by
    apply mountsFold_stable
    intro t ht k hk
    obtain ⟨u, hu, hraised, p, hp, hpk⟩ :=
      threadsFrom_keys ur g2 us 0 t ht k hk
    obtain ⟨t1, ht1, hkt1⟩ := threadsFrom_keys_all ur g1 us 0 u hu hraised p hp
    rw [hst1, stFold_mounts]
    exact (mountsFold_keys_mem (threadsFrom ur g1 0 us) st0.mounts k).mpr
      (Or.inr ⟨t1, ht1, hpk ▸ hkt1⟩)
  have htab : o2.router.table = o1.router.table := by
    rw [htab2, hst2, stFold_mounts, hstable, htab1]
  exact ⟨o1, o2, h1, h2, htab, by rw [htab], fun k => by rw [htab]⟩

/-- C7 (witness): no hypotheses to discharge beyond concreteness; the
two runs over `uOk` and `uTwo` give identical tables. -/
theorem C7_idempotent_reload_witness :
    ∃ o1 o2,
      load false Vall 0 st0c ([uOk, uTwo].map (fun u => (u, true))) =
        Except.ok o1 ∧
      load false Vall 1 o1.st ([uOk, uTwo].map (fun u => (u, true))) =
        Except.ok o2 ∧
      o2.router.table = o1.router.table ∧
      keys o2.router.table = keys o1.router.table ∧
      ∀ k, lookupA o2.router.table k = lookupA o1.router.table k :=
  C7_idempotent_reload false Vall 0 1 st0c [uOk, uTwo]

/-- C8 (code bug): `uFail` records its traceback file in
`reloader_extra_files`, yet with the reloader enabled the watch-set
handed to `reloader.start()` is empty after any all-finished load —
line 106 calls `set.union`, whose result is discarded, so
`extra_files` never grows. -/
theorem C8_watchset_not_accumulated :
    (runFL true 0 0 uFail).extraFiles = ["/apps/a.py"] ∧
    (load true Vall 0 st0c [(uFail, true)]).map (fun o => o.reloaderFiles) =
      Except.ok (some []) ∧
    ∀ (V : String → PyVal → Bool) (gen : Nat) (st0 : AppState)
        (us : List UnitExec),
      (load true V gen st0 (us.map (fun u => (u, true)))).map
          (fun o => o.reloaderFiles) =
        Except.ok (some ([] : List String)) := by
  refine ⟨rfl, rfl, ?_⟩
  intro V gen st0 us
  obtain ⟨o, heq, _, _, hrf, _⟩ := load_allfin true V gen st0 us
  rw [heq]
  simp only [Except.map]
  rw [hrf]
  rfl

/-- C9 (counterexample): with no units at all, `load` returns a router
with an empty table, the reloader is off, and the log says the boot
succeeded — nothing fails loudly, refuting the claim as stated. -/
theorem C9_empty_boot_cex :
    load false Vall 0 st0c [] =
      Except.ok ⟨st0c, none, ⟨[]⟩, [Ev.infoBooted, Ev.debugRoutes]⟩ := rfl

/-- C9 (amended): when every discovered unit raises (or the directory
holds no units), `load` still returns `Except.ok` with a zero-route
router and logs the successful-boot message; the empty boot is not
surfaced as a failure. -/
theorem C9_empty_boot_amended (ur : Bool) (V : String → PyVal → Bool)
    (gen : Nat) (hooks0 : List (String × List PyVal)) (us : List UnitExec)
    (hr : ∀ u ∈ us, u.raised = true) :
    ∃ o, load ur V gen ⟨[], hooks0⟩ (us.map (fun u => (u, true))) = Except.ok o ∧
      o.router.table = [] ∧ Ev.infoBooted ∈ o.log := by
  obtain ⟨o, heq, hst, htab, _, hlog⟩ := load_allfin ur V gen ⟨[], hooks0⟩ us
  refine ⟨o, heq, ?_, hlog⟩
  rw [htab, hst, stFold_mounts]
  show mountsFold [] (threadsFrom ur gen 0 us) = []
  apply mountsFold_stable
  intro t ht k hk
  obtain ⟨u, hu, hraised, _⟩ := threadsFrom_keys ur gen us 0 t ht k hk
  rw [hr u hu] at hraised
  exact Bool.noConfusion hraised

/-- C9 (witness for the amended theorem): one raising unit. -/
theorem C9_empty_boot_amended_witness :
    (∀ u ∈ [uFail], u.raised = true) ∧
    ∃ o, load false Vall 0 ⟨[], initHooks ["on_starting"]⟩
        ([uFail].map (fun u => (u, true))) = Except.ok o ∧
      o.router.table = [] ∧ Ev.infoBooted ∈ o.log :=
  ⟨by decide,
    C9_empty_boot_amended false Vall 0 (initHooks ["on_starting"]) [uFail]
      (by decide)⟩

/-- C10: a finished unit whose namespace binds a recognized hook name
to a falsy value contributes nothing for that hook: the registered
handler list is unchanged, the validator is never invoked for that
name, and no hook-setup error is logged for it. -/
theorem C10_falsy_hook_skipped (V : String → PyVal → Bool) (st : AppState)
    (t : LoaderResult) (hn : String) (hs : List PyVal) (v : PyVal)
    (hreg : lookupA st.hooks hn = some hs)
    (hb : lookupA t.cfg hn = some v) (hf : v.truthy = false) :
    lookupA (mergeThread V st t).1.hooks hn = some hs ∧
    (∀ oid, Ev.validateCall hn oid ∉ (mergeThread V st t).2) ∧
    Ev.hookErr hn t.cf ∉ (mergeThread V st t).2 := by
  refine ⟨?_, ?_, ?_⟩
  · rw [mergeThread_hooks, mergeHooks_lookup, hreg]
    show some ((hookStep V t.cf t.cfg (hn, hs)).1.2) = some hs
    rw [hookStep_falsy V t.cf t.cfg (hn, hs) v hb hf]
  · intro oid hmem
    exact (hook_events_name_falsy V st t hn v hb hf _ hmem).1 oid rfl
  · intro hmem
    exact (hook_events_name_falsy V st t hn v hb hf _ hmem).2 rfl

/-- C10 (witness): `uFalsy` binds `on_starting` to a falsy value; the
registry entry stays empty and no validation or error event occurs. -/
theorem C10_falsy_hook_skipped_witness :
    lookupA (mergeThread Vall st0c (runFL false 0 0 uFalsy)).1.hooks
        "on_starting" = some [] ∧
    (∀ oid, Ev.validateCall "on_starting" oid ∉
      (mergeThread Vall st0c (runFL false 0 0 uFalsy)).2) ∧
    Ev.hookErr "on_starting" (runFL false 0 0 uFalsy).cf ∉
      (mergeThread Vall st0c (runFL false 0 0 uFalsy)).2 :=
  C10_falsy_hook_skipped Vall st0c (runFL false 0 0 uFalsy) "on_starting"
    [] ⟨0, false⟩ rfl rfl rfl

end Greins
